import Mathlib

/-!
Shallow embedding of the pytrans repository's chunked/batched translation
pipeline, and proofs of the specification's claims about it.

Texts are modelled as `List Char` (Python `str`), Python `dict` objects as
association lists with first-occurrence lookup and in-place overwrite on
insert, and the external translation provider as an oracle function passed
in as a parameter (its result per attempt / per chunk / per batch).
-/

namespace PyTrans

/-! ### Python string primitives used by pytrans.py -/

/-- Python `s.rfind(sub)` scanning candidate start positions from `i` down
to `0`: returns the greatest position at or below `i` where `sub` occurs in
full, mirroring `str.rfind`'s highest-index semantics (`none` stands for
Python's `-1`). A candidate position `p` matches when the slice
`s[p : p + len(sub)]` equals `sub`. -/
def rfindAux (s sub : List Char) : Nat → Option Nat
  | 0 => if (s.drop 0).take sub.length = sub then some 0 else none
  | i + 1 =>
    if (s.drop (i + 1)).take sub.length = sub then some (i + 1)
    else rfindAux s sub i

/-- Python `s.rfind(sub)` for nonempty `sub`: the search starts at the last
conceivable position, `len(s)` (positions past the end never match a
nonempty `sub`, so this is harmless and keeps the definition total). -/
def rfind (s sub : List Char) : Option Nat :=
  rfindAux s sub s.length

/-! ### pytrans.py: find_chunk_boundary and chunk_text -/

/-- The delimiter priority list of `find_chunk_boundary`
(`['\n', '\r\n', '.  ', '!  ', '?  ', '; ', ', ', ' ']`). Note the sentence
delimiters carry a period/bang/question mark followed by TWO spaces. -/
def delimiterList : List (List Char) :=
  [['\n'], ['\r', '\n'], ['.', ' ', ' '], ['!', ' ', ' '], ['?', ' ', ' '],
   [';', ' '], [',', ' '], [' ']]

/-- The `for delimiter in [...]` loop of `find_chunk_boundary`: the first
delimiter (in priority order) whose last occurrence is at a position
strictly greater than 0 yields `last_pos + len(delimiter)`. -/
def findDelim (area : List Char) : List (List Char) → Option Nat
  | [] => none
  | d :: ds =>
    match rfind area d with
    | some p => if 0 < p then some (p + d.length) else findDelim area ds
    | none => findDelim area ds

/-- `find_chunk_boundary(text, max_chars)` from pytrans.py: if the text fits,
its full length; otherwise search `text[:max_chars]` for the delimiters in
priority order, fall back to the last plain space, finally hard-cut at
`max_chars`. -/
def find_chunk_boundary (text : List Char) (max_chars : Nat) : Nat :=
  if text.length ≤ max_chars then text.length
  else
    let search_area := text.take max_chars
    match findDelim search_area delimiterList with
    | some r => r
    | none =>
      match rfind search_area [' '] with
      | some p => if 0 < p then p + 1 else max_chars
      | none => max_chars

/-- The `while pos < len(text)` loop of `chunk_text`, phrased on the
remaining suffix. The extra fuel argument only bounds the number of
iterations: with `max_chars ≥ 1` every iteration consumes at least one
character, so `text.length` units of fuel reproduce the Python loop exactly
(for `max_chars = 0` the Python loop does not terminate on nonempty input;
the claims all assume a ceiling of at least 1). -/
def chunkLoop (max_chars : Nat) : Nat → List Char → List (List Char)
  | 0, _ => []
  | fuel + 1, remaining =>
    if remaining.length = 0 then []
    else if remaining.length ≤ max_chars then [remaining]
    else
      let chunk_end := find_chunk_boundary remaining max_chars
      remaining.take chunk_end :: chunkLoop max_chars fuel (remaining.drop chunk_end)

/-- `chunk_text(text, max_chars)` from pytrans.py. -/
def chunk_text (text : List Char) (max_chars : Nat) : List (List Char) :=
  chunkLoop max_chars text.length text

/-- The module-level `MAX_CHARS = 5000` constant of pytrans.py. -/
def MAX_CHARS : Nat := 5000

/-! ### pytrans.py: translate_chunk (retry loop)

The provider (`GoogleTranslator(...).translate`) is modelled as an oracle
`provider : Nat → Option (List Char)` giving the result of the i-th attempt
(`none` = the call raised). The pair returned also counts the provider
invocations made, so the retry bound is stated directly. -/

/-- The `for attempt in range(3)` loop of `translate_chunk`: try the current
attempt; on success return immediately, on failure sleep and move to the
next attempt. Returns the result together with the number of provider
invocations made. -/
def attemptLoop (provider : Nat → Option (List Char)) :
    Nat → Nat → Option (List Char) × Nat
  | _, 0 => (none, 0)
  | attempt, fuel + 1 =>
    match provider attempt with
    | some t => (some t, 1)
    | none =>
      let r := attemptLoop provider (attempt + 1) fuel
      (r.1, r.2 + 1)

/-- `translate_chunk(text, source_lang)` from pytrans.py: up to 3 attempts,
returning `(translated, source_lang)` on the first success and failing
(Python: raising) when all 3 attempts fail. -/
def translate_chunk (provider : Nat → Option (List Char))
    (source_lang : List Char) : Option (List Char × List Char) :=
  ((attemptLoop provider 0 3).1).map (fun t => (t, source_lang))

/-- The number of provider invocations `translate_chunk` makes. -/
def translate_chunk_calls (provider : Nat → Option (List Char)) : Nat :=
  (attemptLoop provider 0 3).2

/-! ### pytrans.py: translate_file (chunked branch)

`trans : Nat → List Char → Option (List Char)` is the oracle giving the
outcome of `translate_chunk` on the i-th chunk (`none` = all retries for
that chunk failed and the call raised). -/

/-- The `for i, chunk in enumerate(chunks)` loop of `translate_file`:
append the translated chunk, or the original chunk when `translate_chunk`
raised (`# Keep original if translation fails`). The accumulator carries
the `translated_chunks` list and the running index. -/
def translateChunksLoop (trans : Nat → List Char → Option (List Char))
    (chunks : List (List Char)) : List (List Char) :=
  (chunks.foldl
    (fun acc chunk =>
      match trans acc.2 chunk with
      | some t => (acc.1 ++ [t], acc.2 + 1)
      | none => (acc.1 ++ [chunk], acc.2 + 1))
    (([] : List (List Char)), 0)).1

/-- `translate_file` from pytrans.py, after the content is loaded: if the
content fits in one request, a single `translate_chunk` call whose failure
propagates (aborting the run); otherwise split with
`chunk_text(content, MAX_CHARS)`, translate sequentially substituting the
original text for failed chunks, and join the pieces with `''.join`. -/
def translate_file (content : List Char)
    (trans : Nat → List Char → Option (List Char)) : Option (List Char) :=
  if content.length ≤ MAX_CHARS then trans 0 content
  else some (translateChunksLoop trans (chunk_text content MAX_CHARS)).flatten

/-! ### Python dict model for tools/trans_rest.py

A Python `dict` is an insertion-ordered map with unique keys. It is
modelled as an association list: lookup returns the first binding;
assignment (`d[k] = v`, and each step of `d.update(...)`) replaces the
value of an existing key in place or appends a new binding at the end,
exactly Python's semantics on dicts (whose keys are unique). -/

/-- Python `d.get(k)` / `d[k]` on the association-list model. -/
def dictGet : List (String × String) → String → Option String
  | [], _ => none
  | p :: rest, k => if p.1 = k then some p.2 else dictGet rest k

/-- Python `k in d`. -/
def hasKey (d : List (String × String)) (k : String) : Bool :=
  (dictGet d k).isSome

/-- Python `d[k] = v`: overwrite the binding of an existing key in place,
else append the new binding. -/
def dictInsert : List (String × String) → String → String → List (String × String)
  | [], k, v => [(k, v)]
  | p :: rest, k, v =>
    if p.1 = k then (k, v) :: rest else p :: dictInsert rest k v

/-- Python `base.update(entries)`: assign each entry of `entries` into
`base`, in order. -/
def dictUpdate (base : List (String × String)) :
    List (String × String) → List (String × String)
  | [] => base
  | p :: rest => dictUpdate (dictInsert base p.1 p.2) rest

/-- The value of the last binding of `k` in an entry list: the value Python
assigns last when the list is written into a dict. -/
def dictGetLast : List (String × String) → String → Option String
  | [], _ => none
  | p :: rest, k =>
    match dictGetLast rest k with
    | some v => some v
    | none => if p.1 = k then some p.2 else none

/-! ### tools/trans_rest.py: translate_batch and translate_batch_worker -/

/-- `translate_batch(words, ...)` from tools/trans_rest.py. The provider
call on the newline-joined payload is modelled by its outcome
`providerResult` (`none` = it raised). On success the returned text is
split on newlines, paired positionally with the words via `zip`, each
translation stripped, and the pairs written into a fresh dict; on failure
every word is mapped to the `'[ERROR]'` sentinel
(`{word: '[ERROR]' for word in words}`). -/
def translate_batch (words : List String) (providerResult : Option String) :
    List (String × String) :=
  match providerResult with
  | some translated_text =>
    let translations := translated_text.splitOn "\n"
    dictUpdate [] ((words.zip translations).map (fun p => (p.1, p.2.trim)))
  | none => dictUpdate [] (words.map (fun w => (w, "[ERROR]")))

/-- The shared state a worker mutates under the lock: the durable store
(`dic.json` as a dict) and the shared completed counter
(`shared_dict['completed']`). -/
structure WorkerState where
  store : List (String × String)
  completed : Nat
deriving Repr, DecidableEq

/-- `translate_batch_worker(batch_info, lock, shared_dict, output_file)`
from tools/trans_rest.py, under the lock: load the existing store (or empty
if absent), `update` it with the batch's translations, write it back, and
only then increment the completed counter by `len(words)`. The flag
`writeOk` models whether the store write (json.dump) succeeds: when it
raises, the outer `except` catches it before the counter line runs, so the
counter is not incremented (the durable state is modelled as unchanged). -/
def translate_batch_worker (words : List String)
    (providerResult : Option String) (writeOk : Bool)
    (st : WorkerState) : WorkerState :=
  let translations := translate_batch words providerResult
  if writeOk then
    { store := dictUpdate st.store translations
      completed := st.completed + words.length }
  else st

/-! ### tools/trans_rest.py: translate_and_update (scheduling) -/

/-- The untranslated-word computation of `translate_and_update`:
`[w for w in all_words if w not in translations]`. -/
def untranslatedOf (all_words : List String)
    (translations : List (String × String)) : List String :=
  all_words.filter (fun w => !(hasKey translations w))

/-- The batch-building loop of `translate_and_update`,
`for i in range(0, len(untranslated), batch_size)`, phrased on the
remaining suffix with the next dense batch number carried along. The
batch size is `b + 1`, so the loop always advances. -/
def makeBatchesAux (b : Nat) : Nat → List String → List (Nat × List String)
  | _, [] => []
  | n, w :: rest =>
    (n, (w :: rest).take (b + 1)) ::
      makeBatchesAux b (n + 1) ((w :: rest).drop (b + 1))
termination_by _ l => l.length
decreasing_by simp [List.length_drop]; omega

/-- The batch list of `translate_and_update`: batches of at most
`batch_size` words, numbered densely from 1 (`i // batch_size + 1`).
Python's `range` raises for a zero step, so the size-0 case is vacuous. -/
def makeBatches (untranslated : List String) (batch_size : Nat) :
    List (Nat × List String) :=
  match batch_size with
  | 0 => []
  | b + 1 => makeBatchesAux b 1 untranslated

/-! ### pytrans.py: load_file (encoding fallback)

File content is a byte sequence, `List (Fin 256)`. A decoder maps bytes to
a decoded string (as a list of code points) or fails. The latin-1 and
iso-8859-1 codecs map each byte to the code point of the same value and
never fail; the utf-8 and cp1252 codecs are left as parameters, since the
claim about `load_file` holds whatever they do. -/

/-- Python's `latin-1` (= `iso-8859-1`) codec: byte value = code point,
total on all byte sequences. -/
def decode_latin1 (bytes : List (Fin 256)) : Option (List Nat) :=
  some (bytes.map (fun b => b.val))

/-- The `for encoding in encodings` loop of `load_file`: return the first
decoder's successful result (a failed decode falls through to the next
encoding). -/
def firstSuccess : List (List (Fin 256) → Option (List Nat)) →
    List (Fin 256) → Option (List Nat)
  | [], _ => none
  | d :: ds, bs =>
    match d bs with
    | some s => some s
    | none => firstSuccess ds bs

/-- `load_file` from pytrans.py on readable content: try the encodings
`['utf-8', 'latin-1', 'cp1252', 'iso-8859-1']` in order; `none` is the
final `raise IOError(... with any encoding)` branch. -/
def load_file (decUtf8 decCp1252 : List (Fin 256) → Option (List Nat))
    (bytes : List (Fin 256)) : Option (List Nat) :=
  firstSuccess [decUtf8, decode_latin1, decCp1252, decode_latin1] bytes

/-! ### Helper lemmas on the chunking functions -/

/-- A full occurrence of a nonempty pattern at position `p` fits inside the
string: `p + sub.length ≤ s.length`. -/
lemma occurrence_fits (s sub : List Char) (p : Nat) (hsub : sub ≠ [])
    (h : (s.drop p).take sub.length = sub) : p + sub.length ≤ s.length := by
  have hlen : ((s.drop p).take sub.length).length = sub.length := by rw [h]
  rw [List.length_take, List.length_drop] at hlen
  have hpos : 0 < sub.length := List.length_pos.mpr hsub
  omega

/-- A position returned by `rfindAux` carries a full match of the pattern. -/
lemma rfindAux_matches (s sub : List Char) :
    ∀ (i p : Nat), rfindAux s sub i = some p →
      (s.drop p).take sub.length = sub := by
  intro i
  induction i with
  | zero =>
    intro p h
    unfold rfindAux at h
    split at h
    · cases h
      assumption
    · cases h
  | succ i ih =>
    intro p h
    unfold rfindAux at h
    split at h
    · cases h
      assumption
    · exact ih p h

/-- A position returned by `rfind` carries a full match of the pattern. -/
lemma rfind_matches (s sub : List Char) (p : Nat) (h : rfind s sub = some p) :
    (s.drop p).take sub.length = sub :=
  rfindAux_matches s sub s.length p h

/-- A result of the delimiter loop is positive and stays inside the search
window, provided every delimiter is a nonempty pattern. -/
lemma findDelim_bounds (area : List Char) :
    ∀ (ds : List (List Char)), (∀ d ∈ ds, d ≠ []) →
      ∀ (r : Nat), findDelim area ds = some r → 0 < r ∧ r ≤ area.length := by
  intro ds
  induction ds with
  | nil => intro _ r h; cases h
  | cons d ds ih =>
    intro hne r h
    have hd : d ≠ [] := hne d (by simp)
    have hds : ∀ x ∈ ds, x ≠ [] := fun x hx => hne x (by simp [hx])
    unfold findDelim at h
    split at h
    next p hrf =>
      split at h
      next hp =>
        cases h
        have hfit := occurrence_fits area d p hd (rfind_matches area d p hrf)
        have hdl : 0 < d.length := List.length_pos.mpr hd
        omega
      next hp => exact ih hds r h
    next hrf => exact ih hds r h

/-- Every delimiter of `find_chunk_boundary` is a nonempty pattern. -/
lemma delimiterList_nonempty : ∀ d ∈ delimiterList, d ≠ [] := by decide

/-- When the text overflows a positive ceiling, the boundary chosen by
`find_chunk_boundary` is positive and at most the ceiling. -/
lemma find_chunk_boundary_bounds (text : List Char) (max_chars : Nat)
    (hmc : 0 < max_chars) (hlen : max_chars < text.length) :
    0 < find_chunk_boundary text max_chars ∧
      find_chunk_boundary text max_chars ≤ max_chars := by
  unfold find_chunk_boundary
  rw [if_neg (by omega)]
  have harea : (text.take max_chars).length = max_chars := by
    rw [List.length_take]; omega
  rcases hfd : findDelim (text.take max_chars) delimiterList with _ | r
  · simp only [hfd]
    rcases hrf : rfind (text.take max_chars) [' '] with _ | p
    · simp only [hrf]; omega
    · simp only [hrf]
      by_cases hp : 0 < p
      · rw [if_pos hp]
        have hfit := occurrence_fits (text.take max_chars) [' '] p (by simp)
          (rfind_matches (text.take max_chars) [' '] p hrf)
        simp only [List.length_cons, List.length_nil] at hfit
        omega
      · rw [if_neg hp]; omega
  · simp only [hfd]
    have := findDelim_bounds (text.take max_chars) delimiterList
      delimiterList_nonempty r hfd
    omega

/-- Concatenating the chunks produced by the chunking loop rebuilds the
remaining text, for any sufficient fuel and positive ceiling. -/
lemma chunkLoop_flatten {max_chars : Nat} (hmc : 0 < max_chars) :
    ∀ (fuel : Nat) (remaining : List Char), remaining.length ≤ fuel →
      (chunkLoop max_chars fuel remaining).flatten = remaining := by
  intro fuel
  induction fuel with
  | zero =>
    intro remaining hfuel
    have : remaining = [] := List.eq_nil_of_length_eq_zero (by omega)
    simp [chunkLoop, this]
  | succ fuel ih =>
    intro remaining hfuel
    unfold chunkLoop
    by_cases h0 : remaining.length = 0
    · simp [h0, List.eq_nil_of_length_eq_zero h0]
    · rw [if_neg h0]
      by_cases hfit : remaining.length ≤ max_chars
      · simp [hfit]
      · rw [if_neg hfit]
        have hbd := find_chunk_boundary_bounds remaining max_chars hmc (by omega)
        set e := find_chunk_boundary remaining max_chars with he
        have hdrop : (remaining.drop e).length ≤ fuel := by
          rw [List.length_drop]; omega
        simp only [List.flatten_cons, ih (remaining.drop e) hdrop]
        exact List.take_append_drop e remaining

/-- Every chunk produced by the chunking loop has length at most the
(positive) ceiling. -/
lemma chunkLoop_length_le {max_chars : Nat} (hmc : 0 < max_chars) :
    ∀ (fuel : Nat) (remaining : List Char),
      ∀ c ∈ chunkLoop max_chars fuel remaining, c.length ≤ max_chars := by
  intro fuel
  induction fuel with
  | zero => intro remaining c hc; simp [chunkLoop] at hc
  | succ fuel ih =>
    intro remaining c hc
    unfold chunkLoop at hc
    by_cases h0 : remaining.length = 0
    · simp [h0] at hc
    · rw [if_neg h0] at hc
      by_cases hfit : remaining.length ≤ max_chars
      · rw [if_pos hfit] at hc
        simp only [List.mem_singleton] at hc
        subst hc
        omega
      · rw [if_neg hfit] at hc
        have hbd := find_chunk_boundary_bounds remaining max_chars hmc (by omega)
        simp only [List.mem_cons] at hc
        rcases hc with hc | hc
        · subst hc
          rw [List.length_take]
          omega
        · exact ih _ c hc

/-! ### Claims C1, C2, C8, C9: the chunk planner -/

/-- C1: for every text and every maxChars ≥ 1, concatenating the chunks
returned by `chunk_text text maxChars` in the order returned yields exactly
the original text — no character is lost, duplicated, or reordered. -/
theorem chunk_text_concat_eq (text : List Char) (maxChars : Nat)
    (h : 1 ≤ maxChars) : (chunk_text text maxChars).flatten = text :=
  chunkLoop_flatten h text.length text (Nat.le_refl _)

/-- Witness for C1 at a concrete input: the ceiling 3 is ≥ 1 and the two
chunks of "ab cd" concatenate back to it. -/
theorem chunk_text_concat_eq_witness :
    (chunk_text ("ab cd".toList) 3).flatten = "ab cd".toList :=
  chunk_text_concat_eq ("ab cd".toList) 3 (by decide)

/-- C2: for every text and every maxChars ≥ 1, every chunk returned by
`chunk_text text maxChars` has length at most maxChars. This holds with no
exception at all: even a space-free run is hard-cut at exactly maxChars, so
the edge case the claim allows for (a chunk longer than the ceiling) never
occurs. -/
theorem chunk_text_chunk_le (text : List Char) (maxChars : Nat)
    (h : 1 ≤ maxChars) : ∀ c ∈ chunk_text text maxChars, c.length ≤ maxChars :=
  fun c hc => chunkLoop_length_le h text.length text c hc

/-- Witness for C2 at a concrete input: the first chunk of "ab cd" under
ceiling 3 has length at most 3. -/
theorem chunk_text_chunk_le_witness : ("ab ".toList).length ≤ 3 :=
  chunk_text_chunk_le ("ab cd".toList) 3 (by decide) ("ab ".toList) (by decide)

/-- Counterexample to C8 as stated: on the spec's own example with ceiling
20, the first chunk is NOT "Hello world. " — the code's sentence delimiter
is a period followed by TWO spaces (`'.  '`), which does not occur in the
window, so the cut falls back to the last plain space. -/
theorem first_chunk_hello_cex :
    (chunk_text
        ("Hello world. This is a test sentence that is reasonably long.".toList)
        20).head? =
      some ("Hello world. This ".toList) ∧
      ((chunk_text
          ("Hello world. This is a test sentence that is reasonably long.".toList)
          20).head? =
        some ("Hello world. ".toList) ↔ False) := by
  decide

/-- C8 (amended): on the spec's example with ceiling 20 the period+double-
space delimiter `'.  '` has no occurrence in the 20-character window, so the
boundary search falls through to the last plain space, at position 17; the
first chunk therefore ends immediately after it and is
"Hello world. This ". -/
theorem first_chunk_hello_amended :
    rfind (("Hello world. This is a test sentence that is reasonably long.".toList).take 20)
        ['.', ' ', ' '] = none ∧
    rfind (("Hello world. This is a test sentence that is reasonably long.".toList).take 20)
        [' '] = some 17 ∧
    (chunk_text
        ("Hello world. This is a test sentence that is reasonably long.".toList)
        20).head? =
      some ("Hello world. This ".toList) := by
  decide

/-- Counterexample to C9 as stated: on the empty text `chunk_text` returns
NO chunks at all (the `while pos < len(text)` loop body never runs), not
one chunk equal to the input. -/
theorem chunk_text_empty_cex :
    chunk_text ([] : List Char) 5 = [] ∧
      (chunk_text ([] : List Char) 5 = [([] : List Char)] ↔ False) := by
  decide

/-- C9 (amended): for every text with length ≤ maxChars, `chunk_text`
returns exactly one chunk equal to the input when the text is nonempty, and
no chunks at all when the text is empty. -/
theorem chunk_text_small_amended (text : List Char) (maxChars : Nat)
    (h : text.length ≤ maxChars) :
    chunk_text text maxChars = if text.isEmpty then [] else [text] := by
  rcases text with _ | ⟨a, t⟩
  · simp [chunk_text, chunkLoop]
  · simp only [List.isEmpty_cons, Bool.false_eq_true, if_false]
    simp only [chunk_text, List.length_cons]
    unfold chunkLoop
    rw [if_neg (by simp), if_pos (by simpa using h)]

/-- Witness for C9's amended statement at a concrete input: "hi" fits the
ceiling 5 and comes back as the single chunk. -/
theorem chunk_text_small_amended_witness :
    chunk_text ("hi".toList) 5 =
      if ("hi".toList).isEmpty then [] else ["hi".toList] :=
  chunk_text_small_amended ("hi".toList) 5 (by decide)

/-! ### Helper lemmas on the dict model -/

/-- Lookup after a single Python dict assignment. -/
lemma dictGet_dictInsert (d : List (String × String)) (a b k : String) :
    dictGet (dictInsert d a b) k = if a = k then some b else dictGet d k := by
  induction d with
  | nil => simp [dictInsert, dictGet]
  | cons p rest ih =>
    simp only [dictInsert]
    by_cases hpa : p.1 = a
    · rw [if_pos hpa]
      by_cases hak : a = k
      · simp [dictGet, hak]
      · have hpk : p.1 ≠ k := by rw [hpa]; exact hak
        simp [dictGet, hak, hpk]
    · rw [if_neg hpa]
      by_cases hpk : p.1 = k
      · have hak : a ≠ k := fun h => hpa (by rw [h, hpk])
        simp [dictGet, hpk, hak]
      · simp [dictGet, hpk, ih]

/-- Lookup after `base.update(entries)`: an entry list binding wins (its
last occurrence), otherwise the base value remains. -/
lemma dictGet_dictUpdate (S P : List (String × String)) (k : String) :
    dictGet (dictUpdate S P) k =
      match dictGetLast P k with
      | some v => some v
      | none => dictGet S k := by
  induction P generalizing S with
  | nil => simp [dictUpdate, dictGetLast]
  | cons p rest ih =>
    simp only [dictUpdate, dictGetLast]
    rw [ih]
    rcases h : dictGetLast rest k with _ | v
    · simp only [dictGet_dictInsert]
      by_cases hpk : p.1 = k
      · simp [hpk]
      · simp [hpk]
    · simp

/-- A key misses the first-occurrence lookup exactly when it is not among
the keys. -/
lemma dictGet_eq_none (d : List (String × String)) (k : String) :
    dictGet d k = none ↔ k ∉ d.map Prod.fst := by
  induction d with
  | nil => simp [dictGet]
  | cons p rest ih =>
    simp only [dictGet, List.map_cons, List.mem_cons]
    by_cases hpk : p.1 = k
    · simp [hpk]
    · have : k ≠ p.1 := fun h => hpk h.symm
      simp [hpk, ih, this]

/-- A key misses the last-occurrence lookup exactly when it is not among
the keys. -/
lemma dictGetLast_eq_none (d : List (String × String)) (k : String) :
    dictGetLast d k = none ↔ k ∉ d.map Prod.fst := by
  induction d with
  | nil => simp [dictGetLast]
  | cons p rest ih =>
    simp only [dictGetLast, List.map_cons, List.mem_cons]
    rcases h : dictGetLast rest k with _ | v
    · rw [h] at ih
      have hk : k ∉ rest.map Prod.fst := ih.mp rfl
      by_cases hpk : p.1 = k
      · simp [hpk]
      · have hkp : k ≠ p.1 := fun hh => hpk hh.symm
        simp [hpk, hkp, hk]
    · rw [h] at ih
      have hk : k ∈ rest.map Prod.fst := by
        by_contra hc
        exact absurd (ih.mpr hc) (by simp)
      simp [hk]

/-- The key list after a Python dict assignment: unchanged for an existing
key, the new key appended otherwise. -/
lemma keys_dictInsert (d : List (String × String)) (a b : String) :
    (dictInsert d a b).map Prod.fst =
      if a ∈ d.map Prod.fst then d.map Prod.fst
      else d.map Prod.fst ++ [a] := by
  induction d with
  | nil => simp [dictInsert]
  | cons p rest ih =>
    simp only [dictInsert, List.map_cons]
    by_cases hpa : p.1 = a
    · simp [hpa]
    · have : a ≠ p.1 := fun h => hpa h.symm
      rw [if_neg hpa]
      simp only [List.map_cons, ih, List.mem_cons]
      by_cases har : a ∈ rest.map Prod.fst
      · simp [har, this]
      · simp [har, this]

/-- Python dict assignment preserves key uniqueness. -/
lemma nodup_keys_dictInsert (d : List (String × String)) (a b : String)
    (h : (d.map Prod.fst).Nodup) : ((dictInsert d a b).map Prod.fst).Nodup := by
  rw [keys_dictInsert]
  by_cases ha : a ∈ d.map Prod.fst
  · simpa [ha]
  · simp [ha, List.nodup_append, h]

/-- `base.update(entries)` preserves key uniqueness. -/
lemma nodup_keys_dictUpdate (S : List (String × String))
    (hS : (S.map Prod.fst).Nodup) :
    ∀ P : List (String × String), ((dictUpdate S P).map Prod.fst).Nodup := by
  intro P
  induction P generalizing S with
  | nil => exact hS
  | cons p rest ih =>
    exact ih (dictInsert S p.1 p.2) (nodup_keys_dictInsert S p.1 p.2 hS)

/-- With unique keys, first- and last-occurrence lookup coincide. -/
lemma dictGetLast_eq_dictGet (d : List (String × String))
    (hd : (d.map Prod.fst).Nodup) (k : String) :
    dictGetLast d k = dictGet d k := by
  induction d with
  | nil => rfl
  | cons p rest ih =>
    simp only [List.map_cons, List.nodup_cons] at hd
    simp only [dictGetLast, dictGet, ih hd.2]
    by_cases hpk : p.1 = k
    · have : dictGet rest k = none := by
        rw [dictGet_eq_none]
        rw [← hpk]
        exact hd.1
      simp [this, hpk]
    · rcases h : dictGet rest k with _ | v
      · simp [hpk]
      · simp [hpk]

/-- Key presence after `base.update(entries)`: a key of either side is a
key of the union, and no key is ever removed. -/
lemma hasKey_dictUpdate (S P : List (String × String)) (k : String) :
    hasKey (dictUpdate S P) k = (hasKey S k || hasKey P k) := by
  unfold hasKey
  rw [dictGet_dictUpdate]
  rcases h : dictGetLast P k with _ | v
  · have : dictGet P k = none := by
      rw [dictGet_eq_none]
      exact (dictGetLast_eq_none P k).mp h
    simp [this]
  · have : k ∈ P.map Prod.fst := by
      by_contra hc
      rw [← dictGetLast_eq_none P k] at hc
      simp [h] at hc
    have : dictGet P k ≠ none := fun hn => by
      rw [dictGet_eq_none] at hn
      exact hn this
    rcases hg : dictGet P k with _ | w
    · exact absurd hg this
    · simp [hg]

/-- Lookup in a store updated with a freshly built dict (the dict Python
builds from an entry list): the entry list's last binding wins, otherwise
the store value remains. -/
lemma dictGet_update_build (S Q : List (String × String)) (k : String) :
    dictGet (dictUpdate S (dictUpdate [] Q)) k =
      match dictGetLast Q k with
      | some v => some v
      | none => dictGet S k := by
  rw [dictGet_dictUpdate]
  rw [dictGetLast_eq_dictGet (dictUpdate [] Q)
    (nodup_keys_dictUpdate [] (by simp) Q) k]
  rw [dictGet_dictUpdate]
  rcases h : dictGetLast Q k with _ | v
  · simp [dictGet]
  · simp

/-- Last-occurrence lookup in a constant-valued entry list built from a
word list: the constant for a listed word, nothing otherwise. -/
lemma dictGetLast_const (l : List String) (c w : String) :
    dictGetLast (l.map (fun x => (x, c))) w =
      if w ∈ l then some c else none := by
  induction l with
  | nil => simp [dictGetLast]
  | cons a rest ih =>
    simp only [List.map_cons, dictGetLast, ih]
    by_cases hwr : w ∈ rest
    · simp [hwr, List.mem_cons]
    · rw [if_neg hwr]
      by_cases haw : a = w
      · simp [haw, List.mem_cons]
      · have hwa : w ≠ a := fun h => haw h.symm
        simp [List.mem_cons, hwr, haw, hwa]

/-! ### Claims C3 and C4: the store merge and the failed batch -/

/-- Counterexample to C3 as stated: merging the partial map
`{"a": "y"}` into a store holding `{"a": "x"}` changes the value of the
existing key "a" — Python `dict.update` lets partial entries overwrite
existing keys. -/
theorem merge_overwrites_cex :
    dictGet (dictUpdate [("a", "x")] [("a", "y")]) "a" = some "y" ∧
      (dictGet (dictUpdate [("a", "x")] [("a", "y")]) "a" =
        dictGet [("a", "x")] "a" ↔ False) := by
  decide

/-- C3 (amended): the read-combine-write merge of `translate_batch_worker`
never removes a key — every key of either the store or the partial map is a
key of the result — and a key absent from the partial map keeps its store
value; but a key present in both sides takes the partial map's (last)
value, overwriting the existing entry. -/
theorem merge_update_characterization (S P : List (String × String))
    (k : String) :
    hasKey (dictUpdate S P) k = (hasKey S k || hasKey P k) ∧
    dictGet (dictUpdate S P) k =
      (match dictGetLast P k with
       | some v => some v
       | none => dictGet S k) :=
  ⟨hasKey_dictUpdate S P k, dictGet_dictUpdate S P k⟩

/-- C4: when the provider call for a batch fails, `translate_batch` maps
every word of the batch to the sentinel "[ERROR]"; after the worker's
store write succeeds, every word of the batch is mapped to "[ERROR]" in
the merged store and the shared completed counter has advanced by exactly
the batch's word count; and when the store write fails, the counter (and
the modelled durable state) is left untouched, so the increment happens
only after a successful write. -/
theorem worker_failed_batch_sentinel (words : List String) (st : WorkerState) :
    (∀ w ∈ words, dictGet (translate_batch words none) w = some "[ERROR]") ∧
    (∀ w ∈ words,
      dictGet (translate_batch_worker words none true st).store w =
        some "[ERROR]") ∧
    (translate_batch_worker words none true st).completed =
      st.completed + words.length ∧
    translate_batch_worker words none false st = st := by
  refine ⟨?_, ?_, rfl, rfl⟩
  · intro w hw
    show dictGet (dictUpdate [] (words.map (fun x => (x, "[ERROR]")))) w = _
    rw [dictGet_dictUpdate, dictGetLast_const]
    simp [hw, dictGet]
  · intro w hw
    show dictGet
      (dictUpdate st.store (dictUpdate [] (words.map (fun x => (x, "[ERROR]")))))
      w = _
    rw [dictGet_update_build, dictGetLast_const]
    simp [hw]

/-! ### Claim C5: per-chunk failure substitution in translate_file -/

/-- The chunk-translation fold of `translate_file`, run from an arbitrary
accumulator: it appends, per chunk in order, the translated text or — when
that chunk's translation failed — the original chunk text. -/
lemma translateChunksFold_eq (trans : Nat → List Char → Option (List Char)) :
    ∀ (chunks : List (List Char)) (acc : List (List Char)) (n : Nat),
      (chunks.foldl
        (fun acc chunk =>
          match trans acc.2 chunk with
          | some t => (acc.1 ++ [t], acc.2 + 1)
          | none => (acc.1 ++ [chunk], acc.2 + 1))
        (acc, n)).1 =
      acc ++ (chunks.enumFrom n).map
        (fun p => match trans p.1 p.2 with | some t => t | none => p.2) := by
  intro chunks
  induction chunks with
  | nil => intro acc n; simp [List.enumFrom]
  | cons c rest ih =>
    intro acc n
    simp only [List.foldl_cons, List.enumFrom_cons, List.map_cons]
    rcases h : trans n c with _ | t
    · simp only [h]
      rw [ih (acc ++ [c]) (n + 1)]
      simp
    · simp only [h]
      rw [ih (acc ++ [t]) (n + 1)]
      simp

/-- C5: for every document content longer than the ceiling `MAX_CHARS`,
`translate_file` succeeds (no single chunk failure aborts the document) and
its output is the concatenation, in original chunk order, of one piece per
chunk: the translated text when that chunk's translation succeeded, and the
original untranslated chunk text when it failed after retries. -/
theorem translate_file_substitutes (content : List Char)
    (trans : Nat → List Char → Option (List Char))
    (h : MAX_CHARS < content.length) :
    translate_file content trans =
      some (((chunk_text content MAX_CHARS).enum.map
        (fun p => match trans p.1 p.2 with | some t => t | none => p.2)).flatten) := by
  unfold translate_file
  rw [if_neg (by omega)]
  unfold translateChunksLoop
  rw [translateChunksFold_eq trans (chunk_text content MAX_CHARS) [] 0]
  rfl

/-- Witness for C5 at a concrete input: 5001 characters overflow the
ceiling, every chunk's translation fails, and the output is the
concatenation of the original chunks. -/
theorem translate_file_substitutes_witness :
    translate_file (List.replicate 5001 'a') (fun _ _ => none) =
      some (((chunk_text (List.replicate 5001 'a') MAX_CHARS).enum.map
        (fun p => p.2)).flatten) :=
  translate_file_substitutes (List.replicate 5001 'a') (fun _ _ => none)
    (by rw [List.length_replicate]; decide)

/-! ### Claim C6: computing and batching the untranslated vocabulary -/

/-- Structure of the batch list built by `makeBatchesAux`: dense numbering
from the starting number, batch sizes at most `b + 1`, concatenation in
order rebuilding the list, and every batched word drawn from the list. -/
lemma makeBatchesAux_props (b : Nat) :
    ∀ (len : Nat) (l : List String), l.length ≤ len → ∀ (n : Nat),
      ((makeBatchesAux b n l).map Prod.fst =
        List.range' n (makeBatchesAux b n l).length 1) ∧
      (∀ p ∈ makeBatchesAux b n l, p.2.length ≤ b + 1) ∧
      (((makeBatchesAux b n l).map Prod.snd).flatten = l) ∧
      (∀ p ∈ makeBatchesAux b n l, ∀ w ∈ p.2, w ∈ l) := by
  intro len
  induction len with
  | zero =>
    intro l hl n
    have : l = [] := List.eq_nil_of_length_eq_zero (by omega)
    subst this
    simp [makeBatchesAux]
  | succ len ih =>
    intro l hl n
    rcases l with _ | ⟨w, rest⟩
    · simp [makeBatchesAux]
    · have hdrop : ((w :: rest).drop (b + 1)).length ≤ len := by
        rw [List.length_drop]
        simp only [List.length_cons] at hl ⊢
        omega
      obtain ⟨h1, h2, h3, h4⟩ := ih ((w :: rest).drop (b + 1)) hdrop (n + 1)
      rw [makeBatchesAux]
      refine ⟨?_, ?_, ?_, ?_⟩
      · simp only [List.map_cons, h1, List.length_cons, List.range'_succ]
      · intro p hp
        rcases List.mem_cons.mp hp with hp | hp
        · subst hp
          show ((w :: rest).take (b + 1)).length ≤ b + 1
          rw [List.length_take]
          exact min_le_left _ _
        · exact h2 p hp
      · simp only [List.map_cons, List.flatten_cons, h3]
        exact List.take_append_drop _ _
      · intro p hp x hx
        rcases List.mem_cons.mp hp with hp | hp
        · subst hp
          exact List.take_subset _ _ hx
        · exact List.drop_subset _ _ (h4 p hp x hx)

/-- C6: the untranslated list is exactly the vocabulary items whose key is
absent from the store — order and duplicate multiplicities preserved, items
with a present key dropped entirely — and the batch list partitions it:
dense numbering 1, 2, 3, …, every batch of at most `batchSize` items,
concatenation in number order reproducing the untranslated list, and no
item with a key already present in the store appearing in any batch. -/
theorem scheduler_batches_spec (all_words : List String)
    (store : List (String × String)) (batchSize : Nat) (hbs : 0 < batchSize) :
    (∀ w ∈ untranslatedOf all_words store, hasKey store w = false) ∧
    (∀ w, (untranslatedOf all_words store).count w =
      if hasKey store w then 0 else all_words.count w) ∧
    ((makeBatches (untranslatedOf all_words store) batchSize).map Prod.fst =
      List.range' 1
        (makeBatches (untranslatedOf all_words store) batchSize).length 1) ∧
    (∀ p ∈ makeBatches (untranslatedOf all_words store) batchSize,
      p.2.length ≤ batchSize) ∧
    (((makeBatches (untranslatedOf all_words store) batchSize).map
        Prod.snd).flatten = untranslatedOf all_words store) ∧
    (∀ p ∈ makeBatches (untranslatedOf all_words store) batchSize,
      ∀ w ∈ p.2, hasKey store w = false) := by
  have hmem : ∀ w ∈ untranslatedOf all_words store, hasKey store w = false := by
    intro w hw
    have := (List.mem_filter.mp hw).2
    simpa using this
  rcases batchSize with _ | b
  · omega
  obtain ⟨h1, h2, h3, h4⟩ :=
    makeBatchesAux_props b (untranslatedOf all_words store).length
      (untranslatedOf all_words store) (Nat.le_refl _) 1
  refine ⟨hmem, ?_, h1, h2, h3, ?_⟩
  · intro w
    by_cases hk : hasKey store w
    · rw [if_pos hk]
      rw [List.count_eq_zero]
      intro hmemw
      rw [hmem w hmemw] at hk
      cases hk
    · rw [if_neg hk]
      exact List.count_filter (by simp [hk])
  · intro p hp x hx
    exact hmem x (h4 p hp x hx)

/-- Witness for C6 at a concrete input: vocabulary ["pen", "book", "pen",
"door", "cat"] against a store already holding "book", with batch size 2:
the untranslated list keeps order and the duplicate "pen", and is cut into
batches number 1 and 2. -/
theorem scheduler_batches_spec_witness :
    (∀ w ∈ untranslatedOf ["pen", "book", "pen", "door", "cat"]
        [("book", "B")], hasKey [("book", "B")] w = false) ∧
    (∀ w, (untranslatedOf ["pen", "book", "pen", "door", "cat"]
        [("book", "B")]).count w =
      if hasKey [("book", "B")] w then 0
      else (["pen", "book", "pen", "door", "cat"] : List String).count w) ∧
    ((makeBatches (untranslatedOf ["pen", "book", "pen", "door", "cat"]
        [("book", "B")]) 2).map Prod.fst =
      List.range' 1
        ((makeBatches (untranslatedOf ["pen", "book", "pen", "door", "cat"]
          [("book", "B")]) 2)).length 1) ∧
    (∀ p ∈ makeBatches (untranslatedOf ["pen", "book", "pen", "door", "cat"]
        [("book", "B")]) 2, p.2.length ≤ 2) ∧
    (((makeBatches (untranslatedOf ["pen", "book", "pen", "door", "cat"]
        [("book", "B")]) 2).map Prod.snd).flatten =
      untranslatedOf ["pen", "book", "pen", "door", "cat"] [("book", "B")]) ∧
    (∀ p ∈ makeBatches (untranslatedOf ["pen", "book", "pen", "door", "cat"]
        [("book", "B")]) 2, ∀ w ∈ p.2, hasKey [("book", "B")] w = false) :=
  scheduler_batches_spec ["pen", "book", "pen", "door", "cat"]
    [("book", "B")] 2 (by decide)

/-! ### Claim C7: the retry policy of translate_chunk -/

/-- C7: `translate_chunk` invokes the provider at most 3 times; it fails
(raises) exactly when attempts 0, 1 and 2 all fail; and whenever attempt
`i < 3` is the first successful one, it returns that attempt's result
(paired with the source language) immediately. -/
theorem translate_chunk_retry_spec (provider : Nat → Option (List Char))
    (src : List Char) :
    translate_chunk_calls provider ≤ 3 ∧
    (translate_chunk provider src = none ↔
      provider 0 = none ∧ provider 1 = none ∧ provider 2 = none) ∧
    (∀ i t, i < 3 → provider i = some t → (∀ j, j < i → provider j = none) →
      translate_chunk provider src = some (t, src)) := by
  refine ⟨?_, ?_, ?_⟩
  · rcases h0 : provider 0 with _ | t0
    · rcases h1 : provider 1 with _ | t1
      · rcases h2 : provider 2 with _ | t2 <;>
          simp [translate_chunk_calls, attemptLoop, h0, h1, h2]
      · simp [translate_chunk_calls, attemptLoop, h0, h1]
    · simp [translate_chunk_calls, attemptLoop, h0]
  · rcases h0 : provider 0 with _ | t0
    · rcases h1 : provider 1 with _ | t1
      · rcases h2 : provider 2 with _ | t2 <;>
          simp [translate_chunk, attemptLoop, h0, h1, h2]
      · simp [translate_chunk, attemptLoop, h0, h1]
    · simp [translate_chunk, attemptLoop, h0]
  · intro i t hi ht hprev
    interval_cases i
    · simp [translate_chunk, attemptLoop, ht]
    · have h0 : provider 0 = none := hprev 0 (by omega)
      simp [translate_chunk, attemptLoop, h0, ht]
    · have h0 : provider 0 = none := hprev 0 (by omega)
      have h1 : provider 1 = none := hprev 1 (by omega)
      simp [translate_chunk, attemptLoop, h0, h1, ht]

/-! ### Claim C10: the encoding fallback of load_file -/

/-- C10: for every byte content, `load_file` returns a decoded string:
whatever the utf-8 and cp1252 codecs do, the fallback list contains
latin-1, which decodes every possible byte sequence, so the final
"could not read with any encoding" branch is unreachable. -/
theorem load_file_total (decUtf8 decCp1252 : List (Fin 256) → Option (List Nat))
    (bytes : List (Fin 256)) :
    (load_file decUtf8 decCp1252 bytes).isSome = true := by
  unfold load_file
  rcases h : decUtf8 bytes with _ | s <;>
    simp [firstSuccess, decode_latin1, h]

end PyTrans
